import Mathlib

/-!
Verification of the buffer ingestion and coordinate-translation subsystem
(`src/buffer_utils.cc`): the column mapper (`get_column`, `column_length`,
`get_byte_to_column`), the FIFO ingestor (`create_fifo_buffer` and its
`FifoWatcher::read_fifo` loop), the file loader (`open_or_create_file_buffer`),
and the debug sink (`write_to_debug_buffer`).

External collaborators (the Buffer text store, UTF-8 decoding, codepoint
widths, the buffer registry, the event loop) are not part of the source file;
they are modelled from the specification, as documented on each definition.
-/

namespace KakBuf

/-- Modelled from the spec: one codepoint of a buffer line, as seen by the
column mapper.  `utf8::read_codepoint` advances the byte iterator by the
codepoint's byte length (`bytes`, at least 1); `codepoint_width` gives its
display width (0, 1 or 2); a tab is recognised by its first byte and occupies
a single byte. -/
structure CChar where
  isTab : Bool
  bytes : Nat
  width : Nat
  deriving DecidableEq, Repr

/-- Well-formedness of a modelled codepoint: a positive byte length, a display
width of 0, 1 or 2 (spec: "advances by its display width (0, 1, or 2)"), and a
tab is a single byte. -/
def wfChar (c : CChar) : Prop :=
  1 ≤ c.bytes ∧ c.width ≤ 2 ∧ (c.isTab = true → c.bytes = 1)

instance (c : CChar) : Decidable (wfChar c) := by
  unfold wfChar; infer_instance

/-- A codepoint whose consumption strictly advances the visual column:
a tab (which jumps to the next tabstop multiple) or a codepoint of display
width at least 1. -/
def strictChar (c : CChar) : Prop :=
  c.isTab = true ∨ 1 ≤ c.width

instance (c : CChar) : Decidable (strictChar c) := by
  unfold strictChar; infer_instance

/-- Column advance of one codepoint, from `get_column`'s loop body: a tab
advances to the next multiple of `tabstop`, any other codepoint advances by
its display width. -/
def charAdvance (tabstop col : Nat) (c : CChar) : Nat :=
  if c.isTab then (col / tabstop + 1) * tabstop else col + c.width

/-- Total byte length of a list of codepoints. -/
def byteLen : List CChar → Nat
  | [] => 0
  | c :: rest => c.bytes + byteLen rest

/-- Column accumulated by scanning all the given codepoints starting from
column `col`. -/
def colAfter (tabstop : Nat) (col : Nat) : List CChar → Nat
  | [] => col
  | c :: rest => colAfter tabstop (charAdvance tabstop col c) rest

/-- The scanning loop of `get_column` (buffer_utils.cc:23-33): while the byte
offset `off` scanned so far is below the requested offset `target`, consume
one codepoint, accumulating its column advance. -/
def getColumnAux (tabstop target : Nat) : List CChar → Nat → Nat → Nat
  | [], _, col => col
  | c :: rest, off, col =>
    if off < target then
      getColumnAux tabstop target rest (off + c.bytes) (charAdvance tabstop col c)
    else col

/-- `get_column` (buffer_utils.cc:18-35): visual column of the byte offset
`target` on the line. -/
def get_column (tabstop : Nat) (line : List CChar) (target : Nat) : Nat :=
  getColumnAux tabstop target line 0 0

/-- `INT_MAX`, the sentinel byte offset passed by `column_length`. -/
def intMax : Nat := 2147483647

/-- `column_length` (buffer_utils.cc:37-40): the visual length of a line,
queried as the column of sentinel byte offset `INT_MAX`. -/
def column_length (tabstop : Nat) (line : List CChar) : Nat :=
  get_column tabstop line intMax

/-- The scanning loop of `get_byte_to_column` (buffer_utils.cc:46-64): while
the accumulated column is below the requested column, consume one codepoint;
if consuming it would overshoot the requested column, stop before it. -/
def getByteAux (tabstop target : Nat) : List CChar → Nat → Nat → Nat
  | [], off, _ => off
  | c :: rest, off, col =>
    if col < target then
      if target < charAdvance tabstop col c then off
      else getByteAux tabstop target rest (off + c.bytes) (charAdvance tabstop col c)
    else off

/-- `get_byte_to_column` (buffer_utils.cc:42-66): byte offset on the line of
the requested visual column `target`. -/
def get_byte_to_column (tabstop : Nat) (line : List CChar) (target : Nat) : Nat :=
  getByteAux tabstop target line 0 0

/-- The last codepoint of the list, if any, strictly advances the column.
This is the condition under which a codepoint boundary is the first byte
offset of its visual column. -/
def strictLast (pre : List CChar) : Prop :=
  ∀ c, pre.getLast? = some c → strictChar c

instance : DecidablePred strictLast := fun pre =>
  match h : pre.getLast? with
  | none => isTrue (by intro c hc; rw [h] at hc; cases hc)
  | some c =>
    if hs : strictChar c then
      isTrue (by
        intro d hd
        rw [h] at hd
        injection hd with h2
        rw [← h2]
        exact hs)
    else isFalse (fun hall => hs (hall c h))

/-- Total visual length of a line: the column accumulated over all its
codepoints. -/
def lineColumns (tabstop : Nat) (line : List CChar) : Nat :=
  colAfter tabstop 0 line

/-! Concrete lines used to instantiate the theorems: a tab, an ASCII
character, a three-byte double-width codepoint, a zero-width codepoint, and
the terminating newline every buffer line carries. -/

def tabChar : CChar := ⟨true, 1, 0⟩
def aChar : CChar := ⟨false, 1, 1⟩
def wideChar : CChar := ⟨false, 3, 2⟩
def zwChar : CChar := ⟨false, 1, 0⟩
def nlChar : CChar := ⟨false, 1, 1⟩

def wLine : List CChar := [tabChar, aChar, wideChar, nlChar]
def zwLine : List CChar := [zwChar, nlChar]

/-! The Buffer collaborator and the FIFO ingestor. -/

/-- Modelled from the spec: the Buffer collaborator's text store.  Content is
a flat character sequence that always ends with a newline (the trailing
newline invariant); a coordinate (line, byte offset in line) is represented
as the absolute byte index it denotes, so `{0,0}` is index 0, `next` moves
one byte forward, `back_coord` is the index of the final newline and
`end_coord` the index one past it. -/
structure Buf where
  content : List Char
  deriving DecidableEq, Repr

/-- Restore the trailing-newline invariant: the buffer "will have
automatically inserted a \n to guarantee its invariant"
(buffer_utils.cc:165-166). -/
def fixNl (l : List Char) : List Char :=
  if l.getLast? = some '\n' then l else l ++ ['\n']

/-- Modelled from the spec: the coordinate of the buffer's last byte. -/
def Buf.back_coord (b : Buf) : Nat := b.content.length - 1

/-- Modelled from the spec: the coordinate one past the buffer's last byte. -/
def Buf.end_coord (b : Buf) : Nat := b.content.length

/-- Modelled from the spec: the next coordinate after `i`. -/
def Buf.next (b : Buf) (i : Nat) : Nat := min (i + 1) b.content.length

/-- Modelled from the spec: `insert(coordinate, text)` splices `text` at the
coordinate and restores the trailing-newline invariant. -/
def Buf.insert (b : Buf) (i : Nat) (text : List Char) : Buf :=
  ⟨fixNl (b.content.take i ++ text ++ b.content.drop i)⟩

/-- Modelled from the spec: `erase(start, end)` removes the bytes of the
half-open coordinate range and restores the trailing-newline invariant. -/
def Buf.erase (b : Buf) (i j : Nat) : Buf :=
  ⟨fixNl (b.content.take i ++ b.content.drop j)⟩

/-- A buffer holding a single empty line: the result of creating a buffer
from an empty snapshot. -/
def emptyBuf : Buf := ⟨['\n']⟩

/-- One iteration's buffer mutation of `FifoWatcher::read_fifo`
(buffer_utils.cc:155-169): append the chunk at the back coordinate; when the
insertion point is the buffer's very first position `{0,0}` and scrolling is
disabled, insert after a synthetic first position instead, then delete the
original first line, and restore a trailing empty line if the chunk itself
ended in a newline. -/
def fifoChunkInsert (b : Buf) (scroll : Bool) (data : List Char) : Buf :=
  if b.back_coord = 0 ∧ scroll = false then
    let b1 := b.insert (b.next b.back_coord) data
    let b2 := b1.erase 0 (b1.next 0)
    if data.getLast? = some '\n' then b2.insert b2.end_coord ['\n'] else b2
  else
    b.insert b.back_coord data

/-- The sequence of chunk insertions performed by the FIFO read loop while
ingesting the given chunks in order. -/
def fifoIngest (b : Buf) (scroll : Bool) (chunks : List (List Char)) : Buf :=
  chunks.foldl (fun acc d => fifoChunkInsert acc scroll d) b

/-- `constexpr size_t max_loop = 16` (buffer_utils.cc:140). -/
def max_loop : Nat := 16

/-- `constexpr size_t buffer_size = 2048` (buffer_utils.cc:136). -/
def buffer_size : Nat := 2048

/-- Result of one invocation of the FIFO read loop: the mutated buffer, the
number of `read` attempts performed, the total number of bytes drained, and
whether the source was marked closed. -/
structure LoopOut where
  buf : Buf
  reads : Nat
  drained : Nat
  closed : Bool
  deriving DecidableEq, Repr

/-- The do-while read loop of `FifoWatcher::read_fifo`
(buffer_utils.cc:146-171).  `rs i` models the result of the `i`-th `::read`
of up to `buffer_size` bytes: `none` for a non-positive return, `some data`
for `data.length` bytes read; `readable i` models `fd_readable` queried after
iteration `i`.  `fuel` counts the loop iterations still allowed after the
current one (`++loop < max_loop`), so the loop is entered with
`max_loop - 1`. -/
def fifoGo (rs : Nat → Option (List Char)) (readable : Nat → Bool) (scroll : Bool) :
    Nat → Nat → Nat → Buf → LoopOut
  | fuel, i, drained, b =>
    match rs i with
    | none => ⟨b, i + 1, drained, true⟩
    | some data =>
      match fuel with
      | 0 => ⟨fifoChunkInsert b scroll data, i + 1, drained + data.length, false⟩
      | fuel' + 1 =>
        if readable i then
          fifoGo rs readable scroll fuel' (i + 1) (drained + data.length)
            (fifoChunkInsert b scroll data)
        else ⟨fifoChunkInsert b scroll data, i + 1, drained + data.length, false⟩

/-- One invocation of the FIFO read loop on buffer `b`. -/
def read_fifo_loop (rs : Nat → Option (List Char)) (readable : Nat → Bool)
    (scroll : Bool) (b : Buf) : LoopOut :=
  fifoGo rs readable scroll (max_loop - 1) 0 0 b

/-- The buffer flag bits: File, New, Fifo, NoUndo, ReadOnly, Debug
(independent bits, per the spec's data model). -/
structure Flags where
  file : Bool
  new : Bool
  fifo : Bool
  noUndo : Bool
  readOnly : Bool
  debug : Bool
  deriving DecidableEq, Repr

/-- Bitwise union of two flag sets (`operator|`). -/
def Flags.union (a b : Flags) : Flags :=
  ⟨a.file || b.file, a.new || b.new, a.fifo || b.fifo,
   a.noUndo || b.noUndo, a.readOnly || b.readOnly, a.debug || b.debug⟩

/-- `Buffer::Flags::Fifo | Buffer::Flags::NoUndo`. -/
def fifoNoUndo : Flags := ⟨false, false, true, true, false, false⟩

/-- `Buffer::Flags::NoUndo` alone. -/
def noUndoFlag : Flags := ⟨false, false, false, true, false, false⟩

/-- Hook names emitted by the FIFO ingestor. -/
inductive HookName where
  | bufOpenFifo
  | bufReadFifo
  | bufCloseFifo
  deriving DecidableEq, Repr

/-- The observable state of a FIFO buffer: its content, its flags, whether
the watcher is present in the buffer's value store, whether the descriptor is
open, and the hooks fired so far (in order). -/
structure FifoSt where
  buf : Buf
  flags : Flags
  watcherPresent : Bool
  fdOpen : Bool
  hooks : List HookName
  deriving DecidableEq, Repr

/-- `~FifoWatcher` (buffer_utils.cc:124-130): release the descriptor, fire
the `BufCloseFifo` hook, clear the Fifo and NoUndo flags. -/
def fifoWatcherDestroy (st : FifoSt) : FifoSt :=
  { st with
    fdOpen := false,
    hooks := st.hooks ++ [HookName.bufCloseFifo],
    flags := { st.flags with fifo := false, noUndo := false } }

/-- `m_buffer.values().erase(fifo_watcher_id)` (buffer_utils.cc:179): erasing
the watcher's key from the value store destroys the watcher, running its
destructor, and removes it from the store. -/
def eraseWatcher (st : FifoSt) : FifoSt :=
  if st.watcherPresent then { fifoWatcherDestroy st with watcherPresent := false }
  else st

/-- `FifoWatcher::read_fifo` (buffer_utils.cc:132-180): run the bounded read
loop, fire `BufReadFifo` if the drain appended content (the back coordinate
moved), and on a closed source erase the watcher from the value store. -/
def read_fifo (rs : Nat → Option (List Char)) (readable : Nat → Bool) (scroll : Bool)
    (st : FifoSt) : FifoSt :=
  let insertCoord := st.buf.back_coord
  let out := read_fifo_loop rs readable scroll st.buf
  let st1 : FifoSt := { st with buf := out.buf }
  let st2 : FifoSt :=
    if insertCoord ≠ st1.buf.back_coord then
      { st1 with hooks := st1.hooks ++ [HookName.bufReadFifo] }
    else st1
  if out.closed then eraseWatcher st2 else st2

/-- `create_fifo_buffer` (buffer_utils.cc:98-191), tracking the returned
buffer's observable state.  An existing buffer of that name gets
`flags() |= NoUndo | flags` and a content reset (buffer_utils.cc:106-107),
otherwise a fresh buffer is created with `flags | Fifo | NoUndo`
(buffer_utils.cc:110-111); then the watcher is attached (line 186), the whole
flag bitset is overwritten with `flags | Fifo | NoUndo` (line 187), and the
`BufOpenFifo` hook fires (line 188). -/
def create_fifo_buffer (existing : Option FifoSt) (flags : Flags) : FifoSt :=
  let st0 : FifoSt :=
    match existing with
    | some old =>
      { old with
        flags := Flags.union old.flags (Flags.union noUndoFlag flags),
        buf := emptyBuf }
    | none =>
      { buf := emptyBuf,
        flags := Flags.union flags fifoNoUndo,
        watcherPresent := false,
        fdOpen := true,
        hooks := [] }
  let st1 : FifoSt := { st0 with watcherPresent := true, fdOpen := true }
  let st2 : FifoSt := { st1 with flags := Flags.union flags fifoNoUndo }
  { st2 with hooks := st2.hooks ++ [HookName.bufOpenFifo] }

/-! The file loader and the buffer registry. -/

/-- Modelled from the spec: the file system seen through `file_exists` and
`MappedFile`. -/
structure FileSys where
  fileExists : String → Bool
  fileContent : String → List Char
  fileMtime : String → Nat

/-- Modelled from the spec: a `MappedFile` snapshot — captured file bytes
plus modification time; construction fails (FileAccessError) when the file
cannot be opened. -/
def mappedFile (fs : FileSys) (path : String) : Except Unit (List Char × Nat) :=
  if fs.fileExists path then Except.ok (fs.fileContent path, fs.fileMtime path)
  else Except.error ()

/-- A registered buffer: name, flags, content and optional modification time
(`none` models `InvalidTime`). -/
structure BufRec where
  name : String
  flags : Flags
  buf : Buf
  mtime : Option Nat
  deriving DecidableEq, Repr

/-- Modelled from the spec: `BufferManager::create_buffer` registers a buffer
seeded with the snapshot's content (the buffer establishes its trailing
newline invariant) and modification time. -/
def create_buffer (name : String) (flags : Flags) (content : List Char)
    (mtime : Option Nat) : BufRec :=
  ⟨name, flags, ⟨fixNl content⟩, mtime⟩

/-- `Buffer::Flags::File | Buffer::Flags::New`. -/
def fileNewFlags : Flags := ⟨true, true, false, false, false, false⟩

/-- `Buffer::Flags::File` alone. -/
def fileFlag : Flags := ⟨true, false, false, false, false, false⟩

/-- `open_or_create_file_buffer` (buffer_utils.cc:75-88): if the path exists,
map the file and register a buffer tagged `File | flags` with its content and
modification time; otherwise register an empty buffer tagged `File | New`
with no modification time. -/
def open_or_create_file_buffer (fs : FileSys) (filename : String) (flags : Flags) :
    Except Unit BufRec :=
  if fs.fileExists filename then
    match mappedFile fs filename with
    | Except.ok fd =>
      Except.ok (create_buffer filename (Flags.union fileFlag flags) fd.1 (some fd.2))
    | Except.error e => Except.error e
  else
    Except.ok (create_buffer filename fileNewFlags [] none)

/-! The debug sink. -/

/-- The observable state the debug sink acts on: whether the buffer registry
is initialized (`BufferManager::has_instance`), the registered buffers, and
the raw error-stream fallback output. -/
structure DebugEnv where
  alive : Bool
  buffers : List BufRec
  rawOut : List Char
  deriving DecidableEq, Repr

/-- `"*debug*"` (buffer_utils.cc:202). -/
def debugBufName : String := "*debug*"

/-- `Buffer::Flags::NoUndo | Buffer::Flags::Debug | Buffer::Flags::ReadOnly`. -/
def debugFlags : Flags := ⟨false, false, false, true, true, true⟩

/-- Set or clear the ReadOnly flag of a registered buffer. -/
def setReadOnly (b : BufRec) (v : Bool) : BufRec :=
  { b with flags := { b.flags with readOnly := v } }

/-- Replace the registered buffer of the given name (in-place mutation of the
found buffer). -/
def replaceBuf (bs : List BufRec) (name : String) (nb : BufRec) : List BufRec :=
  bs.map (fun b => if b.name = name then nb else b)

/-- `write_to_debug_buffer` (buffer_utils.cc:193-220).  Without a registry,
write the text plus a newline to the raw error stream.  Otherwise, if the
debug buffer exists, clear ReadOnly, append the text (adding a trailing
newline unless it already ends in one) and restore ReadOnly — `insertOk`
models whether the insert itself succeeds; the `on_scope_end` guard restores
ReadOnly on the error path too, with the exception propagating (second
component `false`).  If the debug buffer does not exist, create it pre-seeded
with the text plus a trailing blank line, already tagged
NoUndo | Debug | ReadOnly. -/
def write_to_debug_buffer (insertOk : Bool) (str : List Char) (env : DebugEnv) :
    DebugEnv × Bool :=
  if env.alive = false then
    ({ env with rawOut := env.rawOut ++ str ++ ['\n'] }, true)
  else
    match env.buffers.find? (fun b => b.name == debugBufName) with
    | some b =>
      if insertOk then
        ({ env with
            buffers := replaceBuf env.buffers debugBufName
              (setReadOnly
                { setReadOnly b false with
                  buf := b.buf.insert b.buf.back_coord
                    (if str.getLast? = some '\n' then str else str ++ ['\n']) }
                true) },
         true)
      else
        ({ env with
            buffers := replaceBuf env.buffers debugBufName
              (setReadOnly (setReadOnly b false) true) },
         false)
    | none =>
      ({ env with
          buffers := env.buffers ++
            [create_buffer debugBufName debugFlags
              (str ++ (if str.getLast? = some '\n' then ['\n'] else ['\n', '\n'])) none] },
       true)

/-- The debug buffer currently registered, if any. -/
def debugLookup (env : DebugEnv) : Option BufRec :=
  env.buffers.find? (fun b => b.name == debugBufName)

/-- How many registered buffers carry the debug buffer's name. -/
def debugCount (env : DebugEnv) : Nat :=
  (env.buffers.filter (fun b => b.name == debugBufName)).length


/-! Basic facts about the column advance. -/

theorem le_charAdvance (tabstop col : Nat) (c : CChar) (h : 1 ≤ tabstop) :
    col ≤ charAdvance tabstop col c := by
  unfold charAdvance
  split
  · have h1 : col % tabstop < tabstop := Nat.mod_lt _ h
    calc col = tabstop * (col / tabstop) + col % tabstop := (Nat.div_add_mod col tabstop).symm
      _ ≤ tabstop * (col / tabstop) + tabstop := Nat.add_le_add_left (Nat.le_of_lt h1) _
      _ = (col / tabstop + 1) * tabstop := by ring
  · exact Nat.le_add_right _ _

theorem lt_charAdvance (tabstop col : Nat) (c : CChar) (h : 1 ≤ tabstop)
    (hc : strictChar c) : col < charAdvance tabstop col c := by
  unfold charAdvance
  by_cases hT : c.isTab = true
  · rw [if_pos hT]
    have h1 : col % tabstop < tabstop := Nat.mod_lt _ h
    calc col = tabstop * (col / tabstop) + col % tabstop := (Nat.div_add_mod col tabstop).symm
      _ < tabstop * (col / tabstop) + tabstop := Nat.add_lt_add_left h1 _
      _ = (col / tabstop + 1) * tabstop := by ring
  · rw [if_neg hT]
    rcases hc with hc | hc
    · exact absurd hc hT
    · omega

theorem le_colAfter (tabstop : Nat) (h : 1 ≤ tabstop) :
    ∀ (l : List CChar) (col : Nat), col ≤ colAfter tabstop col l
  | [], _ => Nat.le_refl _
  | c :: rest, col =>
    Nat.le_trans (le_charAdvance tabstop col c h) (le_colAfter tabstop h rest _)

theorem lt_colAfter_strictLast (tabstop : Nat) (h : 1 ≤ tabstop) :
    ∀ (l : List CChar) (col : Nat), l ≠ [] →
      (∀ c, l.getLast? = some c → strictChar c) → col < colAfter tabstop col l := by
  intro l
  induction l with
  | nil => intro col hne _; exact absurd rfl hne
  | cons c rest ih =>
    intro col _ hlast
    cases rest with
    | nil =>
      have hs : strictChar c := hlast c rfl
      simpa [colAfter] using lt_charAdvance tabstop col c h hs
    | cons d tl =>
      have hlast' : ∀ e, (d :: tl).getLast? = some e → strictChar e := by
        intro e he
        exact hlast e (by simpa [List.getLast?_cons_cons] using he)
      have h1 : col ≤ charAdvance tabstop col c := le_charAdvance tabstop col c h
      have h2 := ih (charAdvance tabstop col c) (by simp) hlast'
      calc col ≤ charAdvance tabstop col c := h1
        _ < colAfter tabstop (charAdvance tabstop col c) (d :: tl) := h2
        _ = colAfter tabstop col (c :: d :: tl) := rfl

/-! Behaviour of `get_column`'s loop. -/

/-- Scanning up to a codepoint-boundary byte offset accumulates exactly the
columns of the codepoints before that boundary. -/
theorem getColumnAux_boundary (tabstop : Nat) :
    ∀ (pre suf : List CChar) (off col t : Nat), (∀ c ∈ pre, 1 ≤ c.bytes) →
      t = off + byteLen pre →
      getColumnAux tabstop t (pre ++ suf) off col = colAfter tabstop col pre := by
  intro pre
  induction pre with
  | nil =>
    intro suf off col t _ ht
    have ht' : t = off := by simpa [byteLen] using ht
    cases suf with
    | nil => simp [getColumnAux, colAfter]
    | cons c rest => simp [getColumnAux, colAfter, ht']
  | cons c pre ih =>
    intro suf off col t hwf ht
    have hb : 1 ≤ c.bytes := hwf c (by simp)
    have hcond : off < t := by
      have : t = off + (c.bytes + byteLen pre) := by simpa [byteLen] using ht
      omega
    have ht' : t = (off + c.bytes) + byteLen pre := by
      have : t = off + (c.bytes + byteLen pre) := by simpa [byteLen] using ht
      omega
    calc getColumnAux tabstop t (c :: pre ++ suf) off col
        = getColumnAux tabstop t (pre ++ suf) (off + c.bytes) (charAdvance tabstop col c) := by
          simp [getColumnAux, hcond]
      _ = colAfter tabstop (charAdvance tabstop col c) pre :=
          ih suf (off + c.bytes) (charAdvance tabstop col c) t
            (fun d hd => hwf d (by simp [hd])) ht'
      _ = colAfter tabstop col (c :: pre) := rfl

/-- Scanning up to an offset at or past the end of the codepoints accumulates
all their columns. -/
theorem getColumnAux_past (tabstop : Nat) :
    ∀ (l : List CChar) (off col t : Nat), (∀ c ∈ l, 1 ≤ c.bytes) →
      off + byteLen l ≤ t →
      getColumnAux tabstop t l off col = colAfter tabstop col l := by
  intro l
  induction l with
  | nil => intro off col t _ _; simp [getColumnAux, colAfter]
  | cons c rest ih =>
    intro off col t hwf ht
    have hb : 1 ≤ c.bytes := hwf c (by simp)
    have hlen : off + (c.bytes + byteLen rest) ≤ t := by simpa [byteLen] using ht
    have hcond : off < t := by omega
    calc getColumnAux tabstop t (c :: rest) off col
        = getColumnAux tabstop t rest (off + c.bytes) (charAdvance tabstop col c) := by
          simp [getColumnAux, hcond]
      _ = colAfter tabstop (charAdvance tabstop col c) rest :=
          ih (off + c.bytes) (charAdvance tabstop col c) t
            (fun d hd => hwf d (by simp [hd])) (by omega)
      _ = colAfter tabstop col (c :: rest) := rfl

theorem le_getColumnAux (tabstop t : Nat) (h : 1 ≤ tabstop) :
    ∀ (l : List CChar) (off col : Nat), col ≤ getColumnAux tabstop t l off col := by
  intro l
  induction l with
  | nil => intro off col; simp [getColumnAux]
  | cons c rest ih =>
    intro off col
    by_cases hc : off < t
    · calc col ≤ charAdvance tabstop col c := le_charAdvance tabstop col c h
        _ ≤ getColumnAux tabstop t rest (off + c.bytes) (charAdvance tabstop col c) := ih _ _
        _ = getColumnAux tabstop t (c :: rest) off col := by simp [getColumnAux, hc]
    · simp [getColumnAux, hc]

theorem getColumnAux_mono (tabstop t1 t2 : Nat) (h : 1 ≤ tabstop) (h12 : t1 ≤ t2) :
    ∀ (l : List CChar) (off col : Nat),
      getColumnAux tabstop t1 l off col ≤ getColumnAux tabstop t2 l off col := by
  intro l
  induction l with
  | nil => intro off col; simp [getColumnAux]
  | cons c rest ih =>
    intro off col
    by_cases h1 : off < t1
    · have h2 : off < t2 := Nat.lt_of_lt_of_le h1 h12
      simpa [getColumnAux, h1, h2] using ih (off + c.bytes) (charAdvance tabstop col c)
    · by_cases h2 : off < t2
      · simp only [getColumnAux, if_neg h1, if_pos h2]
        calc col ≤ charAdvance tabstop col c := le_charAdvance tabstop col c h
          _ ≤ getColumnAux tabstop t2 rest (off + c.bytes) (charAdvance tabstop col c) :=
            le_getColumnAux tabstop t2 h _ _ _
      · simp [getColumnAux, h1, h2]

/-! Behaviour of `get_byte_to_column`'s loop. -/

/-- When the requested column is exactly the column accumulated over `pre`,
and the last codepoint of `pre` (if any) strictly advances the column, the
scan stops exactly at the byte offset after `pre`. -/
theorem getByteAux_exact (tabstop : Nat) (hts : 1 ≤ tabstop) :
    ∀ (pre suf : List CChar) (off col t : Nat),
      (∀ c, pre.getLast? = some c → strictChar c) →
      colAfter tabstop col pre = t →
      getByteAux tabstop t (pre ++ suf) off col = off + byteLen pre := by
  intro pre
  induction pre with
  | nil =>
    intro suf off col t _ heq
    have ht : col = t := heq
    cases suf with
    | nil => simp [getByteAux, byteLen]
    | cons c rest => simp [getByteAux, byteLen, ht]
  | cons c pre ih =>
    intro suf off col t hlast heq
    have heq' : colAfter tabstop (charAdvance tabstop col c) pre = t := heq
    have hle : charAdvance tabstop col c ≤ t :=
      heq' ▸ le_colAfter tabstop hts pre (charAdvance tabstop col c)
    have hlt : col < t := by
      cases pre with
      | nil =>
        have hs : strictChar c := hlast c rfl
        have := lt_charAdvance tabstop col c hts hs
        have ht' : charAdvance tabstop col c = t := heq'
        omega
      | cons d tl =>
        have hlast' : ∀ e, (d :: tl).getLast? = some e → strictChar e := by
          intro e he
          exact hlast e (by simpa [List.getLast?_cons_cons] using he)
        have h1 : col ≤ charAdvance tabstop col c := le_charAdvance tabstop col c hts
        have h2 := lt_colAfter_strictLast tabstop hts (d :: tl)
          (charAdvance tabstop col c) (by simp) hlast'
        have h3 : colAfter tabstop (charAdvance tabstop col c) (d :: tl) = t := heq'
        omega
    have hlast' : ∀ e, pre.getLast? = some e → strictChar e := by
      intro e he
      cases pre with
      | nil => simp at he
      | cons d tl => exact hlast e (by simpa [List.getLast?_cons_cons] using he)
    calc getByteAux tabstop t (c :: pre ++ suf) off col
        = getByteAux tabstop t (pre ++ suf) (off + c.bytes) (charAdvance tabstop col c) := by
          simp [getByteAux, hlt, Nat.not_lt.mpr hle]
      _ = (off + c.bytes) + byteLen pre :=
          ih suf (off + c.bytes) (charAdvance tabstop col c) t hlast' heq'
      _ = off + byteLen (c :: pre) := by simp [byteLen]; omega

/-- When the requested column falls strictly inside the column span of the
codepoint following `pre`, the scan stops at the byte offset before that
codepoint. -/
theorem getByteAux_interior (tabstop : Nat) (hts : 1 ≤ tabstop) :
    ∀ (pre : List CChar) (c : CChar) (suf : List CChar) (off col t : Nat),
      colAfter tabstop col pre < t →
      t < charAdvance tabstop (colAfter tabstop col pre) c →
      getByteAux tabstop t (pre ++ c :: suf) off col = off + byteLen pre := by
  intro pre
  induction pre with
  | nil =>
    intro c suf off col t h1 h2
    have h1' : col < t := h1
    have h2' : t < charAdvance tabstop col c := h2
    simp [getByteAux, byteLen, h1', h2']
  | cons d pre ih =>
    intro c suf off col t h1 h2
    have h1' : colAfter tabstop (charAdvance tabstop col d) pre < t := h1
    have hcol : col < t := by
      have ha : col ≤ charAdvance tabstop col d := le_charAdvance tabstop col d hts
      have hb := le_colAfter tabstop hts pre (charAdvance tabstop col d)
      omega
    have hd : ¬ t < charAdvance tabstop col d := by
      have hb := le_colAfter tabstop hts pre (charAdvance tabstop col d)
      omega
    calc getByteAux tabstop t (d :: pre ++ c :: suf) off col
        = getByteAux tabstop t (pre ++ c :: suf) (off + d.bytes) (charAdvance tabstop col d) := by
          simp [getByteAux, hcol, hd]
      _ = (off + d.bytes) + byteLen pre := ih c suf (off + d.bytes) _ t h1' h2
      _ = off + byteLen (d :: pre) := by simp [byteLen]; omega

/-- C6: for every buffer line and every tabstop ≥ 1, the column returned by
`get_column` is monotone non-decreasing in the requested byte offset. -/
theorem get_column_mono (tabstop : Nat) (line : List CChar) (t1 t2 : Nat)
    (hts : 1 ≤ tabstop) (h12 : t1 ≤ t2) :
    get_column tabstop line t1 ≤ get_column tabstop line t2 :=
  getColumnAux_mono tabstop t1 t2 hts h12 line 0 0

theorem get_column_mono_witness :
    1 ≤ 4 ∧ (1 : Nat) ≤ 2 ∧ get_column 4 wLine 1 ≤ get_column 4 wLine 2 :=
  ⟨by decide, by decide, get_column_mono 4 wLine 1 2 (by decide) (by decide)⟩

/-- C7: for every line of well-formed codepoints and tabstop ≥ 1, querying
`get_column` at a byte offset at or past the end of the line returns the
line's total visual length; in particular `column_length`, which passes the
sentinel offset `INT_MAX`, equals the column of the full line whenever the
line fits in `INT_MAX` bytes. -/
theorem get_column_past_end (tabstop : Nat) (line : List CChar)
    (hts : 1 ≤ tabstop) (hwf : ∀ c ∈ line, 1 ≤ c.bytes) :
    (∀ t, byteLen line ≤ t → get_column tabstop line t = lineColumns tabstop line) ∧
    (byteLen line ≤ intMax → column_length tabstop line = lineColumns tabstop line) := by
  constructor
  · intro t ht
    exact getColumnAux_past tabstop line 0 0 t hwf (by omega)
  · intro h
    exact getColumnAux_past tabstop line 0 0 intMax hwf (by omega)

theorem get_column_past_end_witness :
    1 ≤ 4 ∧ (∀ c ∈ wLine, 1 ≤ c.bytes) ∧
    ((∀ t, byteLen wLine ≤ t → get_column 4 wLine t = lineColumns 4 wLine) ∧
     (byteLen wLine ≤ intMax → column_length 4 wLine = lineColumns 4 wLine)) :=
  ⟨by decide, by decide, get_column_past_end 4 wLine (by decide) (by decide)⟩

/-- C1 fails as stated: on a line starting with a zero-width codepoint
(display width 0 — neither a tab nor a wide character, so byte offset 1 is
not interior to a tab expansion or to a wide-character span), the round trip
`get_byte_to_column ∘ get_column` at byte offset 1 returns 0, not 1: the
column of offset 1 equals the column of offset 0, and the inverse scan stops
at the first byte offset of that column. -/
theorem roundtrip_counterexample :
    (∀ c ∈ zwLine, wfChar c) ∧
    zwLine.head? = some ⟨false, 1, 0⟩ ∧
    byteLen [zwChar] = 1 ∧
    get_column 4 zwLine 1 = 0 ∧
    get_byte_to_column 4 zwLine (get_column 4 zwLine 1) ≠ 1 := by
  decide

/-- C1 (amended): for every line, tabstop ≥ 1, and coordinate `c` at a
codepoint boundary (the byte length of a codepoint prefix `pre` of the line)
such that the codepoint immediately before `c`, if any, is a tab or has
display width at least 1, `get_byte_to_column` applied to the column returned
by `get_column` at `c` returns exactly `c`. -/
theorem roundtrip_at_boundary (tabstop : Nat) (line pre suf : List CChar)
    (hts : 1 ≤ tabstop) (hsplit : line = pre ++ suf)
    (hwf : ∀ c ∈ pre, 1 ≤ c.bytes) (hlast : strictLast pre) :
    get_byte_to_column tabstop line (get_column tabstop line (byteLen pre)) = byteLen pre := by
  subst hsplit
  have h1 : get_column tabstop (pre ++ suf) (byteLen pre) = colAfter tabstop 0 pre :=
    getColumnAux_boundary tabstop pre suf 0 0 (byteLen pre) hwf (by omega)
  rw [h1]
  have h2 := getByteAux_exact tabstop hts pre suf 0 0 (colAfter tabstop 0 pre) hlast rfl
  show getByteAux tabstop (colAfter tabstop 0 pre) (pre ++ suf) 0 0 = byteLen pre
  rw [h2]
  omega

theorem roundtrip_at_boundary_witness :
    1 ≤ 4 ∧ wLine = [tabChar, aChar] ++ [wideChar, nlChar] ∧
    (∀ c ∈ [tabChar, aChar], 1 ≤ c.bytes) ∧ strictLast [tabChar, aChar] ∧
    get_byte_to_column 4 wLine (get_column 4 wLine (byteLen [tabChar, aChar])) =
      byteLen [tabChar, aChar] :=
  ⟨by decide, by decide, by decide, by decide,
   roundtrip_at_boundary 4 wLine [tabChar, aChar] [wideChar, nlChar]
     (by decide) (by decide) (by decide) (by decide)⟩

/-- C5: for every line, tabstop ≥ 1, and requested column `t` falling
strictly inside the column span of one codepoint (a tab's expansion or a
multi-column codepoint), `get_byte_to_column` returns the byte offset of the
position before that codepoint. -/
theorem get_byte_to_column_interior (tabstop : Nat) (line pre suf : List CChar)
    (c : CChar) (t : Nat) (hts : 1 ≤ tabstop) (hsplit : line = pre ++ c :: suf)
    (h1 : colAfter tabstop 0 pre < t)
    (h2 : t < charAdvance tabstop (colAfter tabstop 0 pre) c) :
    get_byte_to_column tabstop line t = byteLen pre := by
  subst hsplit
  have h := getByteAux_interior tabstop hts pre c suf 0 0 t h1 h2
  show getByteAux tabstop t (pre ++ c :: suf) 0 0 = byteLen pre
  rw [h]
  omega

theorem get_byte_to_column_interior_witness :
    1 ≤ 4 ∧ wLine = [] ++ tabChar :: [aChar, wideChar, nlChar] ∧
    colAfter 4 0 [] < 2 ∧ 2 < charAdvance 4 (colAfter 4 0 []) tabChar ∧
    get_byte_to_column 4 wLine 2 = byteLen ([] : List CChar) :=
  ⟨by decide, by decide, by decide, by decide,
   get_byte_to_column_interior 4 wLine [] [aChar, wideChar, nlChar] tabChar 2
     (by decide) (by decide) (by decide) (by decide)⟩

/-! Facts about the FIFO ingestor. -/

theorem getLast?_not_newline {data : List Char} (h : '\n' ∉ data) :
    data.getLast? ≠ some '\n' := by
  intro hc
  have hx : '\n' ∈ data.getLast? := Option.mem_def.mpr hc
  obtain ⟨hne, heq⟩ := List.mem_getLast?_eq_getLast hx
  exact h (heq ▸ List.getLast_mem hne)

theorem getLast?_append_singleton {α : Type} (l : List α) (a : α) :
    (l ++ [a]).getLast? = some a := by
  have := List.getLast?_append_cons l a ([] : List α)
  simpa using this

/-- One FIFO chunk insertion on a buffer of the form `acc ++ "\n"` appends
the chunk before the trailing newline. -/
theorem fifoChunkInsert_append (acc data : List Char)
    (hd : data ≠ []) (hnl : '\n' ∉ data) :
    fifoChunkInsert ⟨acc ++ ['\n']⟩ false data = ⟨acc ++ data ++ ['\n']⟩ := by
  cases acc with
  | nil =>
    have hback : (Buf.mk (([] : List Char) ++ ['\n'])).back_coord = 0 := rfl
    rw [fifoChunkInsert, if_pos ⟨hback, rfl⟩]
    have hlast1 : ('\n' :: data).getLast? = data.getLast? := by
      cases data with
      | nil => exact absurd rfl hd
      | cons d tl => exact List.getLast?_cons_cons
    have hfix1 : fixNl (['\n'] ++ data) = '\n' :: (data ++ ['\n']) := by
      rw [fixNl, if_neg]
      · simp
      · rw [List.singleton_append, hlast1]
        exact getLast?_not_newline hnl
    have hb1 : (Buf.mk (([] : List Char) ++ ['\n'])).insert 1 data =
        ⟨'\n' :: (data ++ ['\n'])⟩ := by
      rw [Buf.insert]
      simp only [List.nil_append, List.take, List.drop, List.append_nil]
      rw [hfix1]
    rw [show (Buf.mk (([] : List Char) ++ ['\n'])).next
          (Buf.mk (([] : List Char) ++ ['\n'])).back_coord = 1 from rfl]
    rw [hb1]
    have hb2 : (Buf.mk ('\n' :: (data ++ ['\n']))).erase 0
        ((Buf.mk ('\n' :: (data ++ ['\n']))).next 0) = ⟨data ++ ['\n']⟩ := by
      rw [show (Buf.mk ('\n' :: (data ++ ['\n']))).next 0 = 1 by
            simp [Buf.next]]
      rw [Buf.erase]
      simp only [List.take, List.drop, List.nil_append]
      rw [fixNl, if_pos (getLast?_append_singleton data '\n')]
    simp only [hb2]
    rw [if_neg (getLast?_not_newline hnl)]
    simp
  | cons x xs =>
    have hback : (Buf.mk ((x :: xs) ++ ['\n'])).back_coord = (x :: xs).length := by
      simp [Buf.back_coord]
    have hne : ¬((Buf.mk ((x :: xs) ++ ['\n'])).back_coord = 0 ∧ false = false) := by
      rw [hback]; simp
    rw [fifoChunkInsert, if_neg hne, hback, Buf.insert, List.take_left, List.drop_left]
    rw [fixNl, if_pos]
    exact getLast?_append_singleton ((x :: xs) ++ data) '\n'

/-- C2: ingesting newline-free chunks through the FIFO read loop's insertion
sequence with scrolling disabled, starting from the buffer whose insertion
point is the very first position `{0,0}` (the single-empty-line buffer),
leaves the appended content starting at offset 0 of line 0, with the trailing
newline invariant intact. -/
theorem fifo_scroll_anchor (chunks : List (List Char))
    (h : ∀ d ∈ chunks, d ≠ [] ∧ '\n' ∉ d) :
    (fifoIngest ⟨['\n']⟩ false chunks).content = chunks.flatten ++ ['\n'] := by
  suffices hgen : ∀ (cs : List (List Char)) (acc : List Char),
      (∀ d ∈ cs, d ≠ [] ∧ '\n' ∉ d) →
      fifoIngest ⟨acc ++ ['\n']⟩ false cs = ⟨acc ++ cs.flatten ++ ['\n']⟩ by
    have := hgen chunks [] h
    simp only [List.nil_append] at this
    rw [fifoIngest] at this
    rw [fifoIngest, this]
  intro cs
  induction cs with
  | nil => intro acc _; simp [fifoIngest]
  | cons d tl ih =>
    intro acc hall
    have hd := hall d (by simp)
    have htl : ∀ e ∈ tl, e ≠ [] ∧ '\n' ∉ e := fun e he => hall e (by simp [he])
    rw [fifoIngest, List.foldl_cons, fifoChunkInsert_append acc d hd.1 hd.2]
    have := ih (acc ++ d) htl
    rw [fifoIngest] at this
    rw [this]
    simp

theorem fifo_scroll_anchor_witness :
    (∀ d ∈ [['a'], ['b', 'c']], d ≠ [] ∧ '\n' ∉ d) ∧
    (fifoIngest ⟨['\n']⟩ false [['a'], ['b', 'c']]).content =
      [['a'], ['b', 'c']].flatten ++ ['\n'] :=
  ⟨by decide, fifo_scroll_anchor [['a'], ['b', 'c']] (by decide)⟩

/-! Facts about the FIFO read loop. -/

theorem fifoGo_none (rs : Nat → Option (List Char)) (rd : Nat → Bool) (sc : Bool)
    (fuel i d : Nat) (b : Buf) (h : rs i = none) :
    fifoGo rs rd sc fuel i d b = ⟨b, i + 1, d, true⟩ := by
  rw [fifoGo, h]

theorem fifoGo_some_zero (rs : Nat → Option (List Char)) (rd : Nat → Bool) (sc : Bool)
    (i d : Nat) (b : Buf) (data : List Char) (h : rs i = some data) :
    fifoGo rs rd sc 0 i d b =
      ⟨fifoChunkInsert b sc data, i + 1, d + data.length, false⟩ := by
  rw [fifoGo, h]

theorem fifoGo_some_succ (rs : Nat → Option (List Char)) (rd : Nat → Bool) (sc : Bool)
    (fuel i d : Nat) (b : Buf) (data : List Char) (h : rs i = some data) :
    fifoGo rs rd sc (fuel + 1) i d b =
      (if rd i then
        fifoGo rs rd sc fuel (i + 1) (d + data.length) (fifoChunkInsert b sc data)
      else ⟨fifoChunkInsert b sc data, i + 1, d + data.length, false⟩) := by
  rw [fifoGo, h]

theorem fifoGo_reads_le (rs : Nat → Option (List Char)) (readable : Nat → Bool)
    (scroll : Bool) :
    ∀ (fuel i d : Nat) (b : Buf),
      (fifoGo rs readable scroll fuel i d b).reads ≤ i + 1 + fuel := by
  intro fuel
  induction fuel with
  | zero =>
    intro i d b
    cases hrs : rs i with
    | none => rw [fifoGo_none rs readable scroll 0 i d b hrs]
    | some data => rw [fifoGo_some_zero rs readable scroll i d b data hrs]
  | succ fuel ih =>
    intro i d b
    cases hrs : rs i with
    | none =>
      rw [fifoGo_none rs readable scroll (fuel + 1) i d b hrs]
      show i + 1 ≤ i + 1 + (fuel + 1)
      omega
    | some data =>
      rw [fifoGo_some_succ rs readable scroll fuel i d b data hrs]
      by_cases hr : readable i
      · rw [if_pos hr]
        have := ih (i + 1) (d + data.length) (fifoChunkInsert b scroll data)
        omega
      · rw [if_neg hr]
        show i + 1 ≤ i + 1 + (fuel + 1)
        omega

theorem fifoGo_drained_le (rs : Nat → Option (List Char)) (readable : Nat → Bool)
    (scroll : Bool)
    (hsz : ∀ i data, rs i = some data → data.length ≤ buffer_size) :
    ∀ (fuel i d : Nat) (b : Buf),
      (fifoGo rs readable scroll fuel i d b).drained ≤ d + (fuel + 1) * buffer_size := by
  intro fuel
  induction fuel with
  | zero =>
    intro i d b
    cases hrs : rs i with
    | none =>
      rw [fifoGo_none rs readable scroll 0 i d b hrs]
      show d ≤ d + (0 + 1) * buffer_size
      omega
    | some data =>
      have := hsz i data hrs
      rw [fifoGo_some_zero rs readable scroll i d b data hrs]
      show d + data.length ≤ d + (0 + 1) * buffer_size
      omega
  | succ fuel ih =>
    intro i d b
    have hsplit : (fuel + 1 + 1) * buffer_size = (fuel + 1) * buffer_size + buffer_size := by
      ring
    cases hrs : rs i with
    | none =>
      rw [fifoGo_none rs readable scroll (fuel + 1) i d b hrs]
      show d ≤ d + (fuel + 1 + 1) * buffer_size
      omega
    | some data =>
      have hlen := hsz i data hrs
      rw [fifoGo_some_succ rs readable scroll fuel i d b data hrs]
      by_cases hr : readable i
      · rw [if_pos hr]
        have := ih (i + 1) (d + data.length) (fifoChunkInsert b scroll data)
        omega
      · rw [if_neg hr]
        show d + data.length ≤ d + (fuel + 1 + 1) * buffer_size
        omega

theorem fifoGo_progress (rs : Nat → Option (List Char)) (readable : Nat → Bool)
    (scroll : Bool) :
    ∀ (fuel i d : Nat) (b : Buf) (j : Nat), i ≤ j →
      j + 1 < (fifoGo rs readable scroll fuel i d b).reads →
      readable j = true ∧ rs j ≠ none := by
  intro fuel
  induction fuel with
  | zero =>
    intro i d b j hij hj
    cases hrs : rs i with
    | none =>
      rw [fifoGo_none rs readable scroll 0 i d b hrs] at hj
      exact absurd (show j + 1 < i + 1 from hj) (by omega)
    | some data =>
      rw [fifoGo_some_zero rs readable scroll i d b data hrs] at hj
      exact absurd (show j + 1 < i + 1 from hj) (by omega)
  | succ fuel ih =>
    intro i d b j hij hj
    cases hrs : rs i with
    | none =>
      rw [fifoGo_none rs readable scroll (fuel + 1) i d b hrs] at hj
      exact absurd (show j + 1 < i + 1 from hj) (by omega)
    | some data =>
      rw [fifoGo_some_succ rs readable scroll fuel i d b data hrs] at hj
      by_cases hr : readable i
      · rw [if_pos hr] at hj
        by_cases hji : j = i
        · subst hji
          exact ⟨hr, by simp [hrs]⟩
        · exact ih (i + 1) (d + data.length) (fifoChunkInsert b scroll data) j
            (by omega) hj
      · rw [if_neg hr] at hj
        exact absurd (show j + 1 < i + 1 from hj) (by omega)

theorem fifoGo_closed_iff (rs : Nat → Option (List Char)) (readable : Nat → Bool)
    (scroll : Bool) :
    ∀ (fuel i d : Nat) (b : Buf),
      ((fifoGo rs readable scroll fuel i d b).closed = true ↔
        rs ((fifoGo rs readable scroll fuel i d b).reads - 1) = none) := by
  intro fuel
  induction fuel with
  | zero =>
    intro i d b
    cases hrs : rs i with
    | none =>
      rw [fifoGo_none rs readable scroll 0 i d b hrs]
      simpa using hrs
    | some data =>
      rw [fifoGo_some_zero rs readable scroll i d b data hrs]
      simp [hrs]
  | succ fuel ih =>
    intro i d b
    cases hrs : rs i with
    | none =>
      rw [fifoGo_none rs readable scroll (fuel + 1) i d b hrs]
      simpa using hrs
    | some data =>
      rw [fifoGo_some_succ rs readable scroll fuel i d b data hrs]
      by_cases hr : readable i
      · rw [if_pos hr]
        exact ih (i + 1) (d + data.length) (fifoChunkInsert b scroll data)
      · rw [if_neg hr]
        simp [hrs]

/-- C3: one invocation of the FIFO read loop performs at most `max_loop = 16`
read attempts; assuming each `::read` of up to `buffer_size = 2048` bytes
returns at most that many bytes, it never drains more than
`16 * 2048` bytes per invocation, so a larger burst needs further dispatch
cycles; every iteration after the first required the descriptor to still be
immediately readable (and the previous read to be positive); and the loop
ends marked closed exactly when its final read attempt returned a
non-positive result. -/
theorem read_fifo_backpressure (rs : Nat → Option (List Char))
    (readable : Nat → Bool) (scroll : Bool) (b : Buf)
    (hsz : ∀ i data, rs i = some data → data.length ≤ buffer_size) :
    (read_fifo_loop rs readable scroll b).reads ≤ max_loop ∧
    (read_fifo_loop rs readable scroll b).drained ≤ max_loop * buffer_size ∧
    (∀ j, j + 1 < (read_fifo_loop rs readable scroll b).reads →
      readable j = true ∧ rs j ≠ none) ∧
    ((read_fifo_loop rs readable scroll b).closed = true ↔
      rs ((read_fifo_loop rs readable scroll b).reads - 1) = none) := by
  refine ⟨?_, ?_, ?_, ?_⟩
  · have := fifoGo_reads_le rs readable scroll (max_loop - 1) 0 0 b
    rw [read_fifo_loop]
    rw [max_loop] at this ⊢
    omega
  · have := fifoGo_drained_le rs readable scroll hsz (max_loop - 1) 0 0 b
    rw [read_fifo_loop]
    rw [max_loop, buffer_size] at this ⊢
    omega
  · intro j hj
    exact fifoGo_progress rs readable scroll (max_loop - 1) 0 0 b j (Nat.zero_le j) hj
  · exact fifoGo_closed_iff rs readable scroll (max_loop - 1) 0 0 b

/-- A stream of single-byte reads on an always-readable descriptor, used to
instantiate the backpressure theorem. -/
def wStream : Nat → Option (List Char) := fun _ => some ['a']

theorem read_fifo_backpressure_witness :
    (∀ i data, wStream i = some data → data.length ≤ buffer_size) ∧
    ((read_fifo_loop wStream (fun _ => true) false emptyBuf).reads ≤ max_loop ∧
     (read_fifo_loop wStream (fun _ => true) false emptyBuf).drained ≤
       max_loop * buffer_size ∧
     (∀ j, j + 1 < (read_fifo_loop wStream (fun _ => true) false emptyBuf).reads →
       (fun _ => true) j = true ∧ wStream j ≠ none) ∧
     ((read_fifo_loop wStream (fun _ => true) false emptyBuf).closed = true ↔
       wStream ((read_fifo_loop wStream (fun _ => true) false emptyBuf).reads - 1) =
         none)) := by
  have hsz : ∀ i data, wStream i = some data → data.length ≤ buffer_size := by
    intro i data h
    rw [wStream] at h
    injection h with h2
    rw [← h2]
    decide
  exact ⟨hsz, read_fifo_backpressure wStream (fun _ => true) false emptyBuf hsz⟩

/-! The FIFO close path and `create_fifo_buffer`. -/

/-- C4: when the FIFO read loop ends with the source marked closed, one
invocation of the read handler erases the watcher from the buffer's value
store, which releases the descriptor, fires exactly one `BufCloseFifo` hook,
and clears the Fifo and NoUndo flags on the buffer. -/
theorem fifo_close_behaviour (rs : Nat → Option (List Char)) (readable : Nat → Bool)
    (scroll : Bool) (st : FifoSt) (hw : st.watcherPresent = true)
    (hclosed : (read_fifo_loop rs readable scroll st.buf).closed = true) :
    (read_fifo rs readable scroll st).watcherPresent = false ∧
    (read_fifo rs readable scroll st).fdOpen = false ∧
    (read_fifo rs readable scroll st).hooks.count HookName.bufCloseFifo =
      st.hooks.count HookName.bufCloseFifo + 1 ∧
    (read_fifo rs readable scroll st).flags.fifo = false ∧
    (read_fifo rs readable scroll st).flags.noUndo = false := by
  rw [read_fifo]
  simp only [hclosed, if_true]
  by_cases hhook : st.buf.back_coord ≠ (read_fifo_loop rs readable scroll st.buf).buf.back_coord
  · rw [if_pos hhook]
    rw [eraseWatcher, if_pos hw]
    refine ⟨rfl, rfl, ?_, rfl, rfl⟩
    show ((st.hooks ++ [HookName.bufReadFifo]) ++ [HookName.bufCloseFifo]).count
        HookName.bufCloseFifo = st.hooks.count HookName.bufCloseFifo + 1
    rw [List.count_append, List.count_append]
    simp [List.count_singleton]
  · rw [if_neg hhook]
    rw [eraseWatcher, if_pos hw]
    refine ⟨rfl, rfl, ?_, rfl, rfl⟩
    show (st.hooks ++ [HookName.bufCloseFifo]).count HookName.bufCloseFifo =
      st.hooks.count HookName.bufCloseFifo + 1
    rw [List.count_append]
    simp [List.count_singleton]

/-- A FIFO buffer state with the watcher attached, used to instantiate the
close-behaviour theorem. -/
def wFifoSt : FifoSt :=
  { buf := emptyBuf,
    flags := fifoNoUndo,
    watcherPresent := true,
    fdOpen := true,
    hooks := [HookName.bufOpenFifo] }

theorem fifo_close_behaviour_witness :
    wFifoSt.watcherPresent = true ∧
    (read_fifo_loop (fun _ => none) (fun _ => true) false wFifoSt.buf).closed = true ∧
    ((read_fifo (fun _ => none) (fun _ => true) false wFifoSt).watcherPresent = false ∧
     (read_fifo (fun _ => none) (fun _ => true) false wFifoSt).fdOpen = false ∧
     (read_fifo (fun _ => none) (fun _ => true) false wFifoSt).hooks.count
        HookName.bufCloseFifo = wFifoSt.hooks.count HookName.bufCloseFifo + 1 ∧
     (read_fifo (fun _ => none) (fun _ => true) false wFifoSt).flags.fifo = false ∧
     (read_fifo (fun _ => none) (fun _ => true) false wFifoSt).flags.noUndo = false) :=
  ⟨rfl, by decide,
   fifo_close_behaviour (fun _ => none) (fun _ => true) false wFifoSt rfl (by decide)⟩

/-- C10: after `create_fifo_buffer`, the returned buffer's flag set is exactly
the passed flags plus Fifo and NoUndo — the final assignment overwrites the
whole bitset, so whatever flags a pre-existing buffer of that name carried
(for example File or New) are cleared rather than preserved. -/
theorem create_fifo_buffer_flags_overwrite (existing : Option FifoSt) (flags : Flags) :
    (create_fifo_buffer existing flags).flags = Flags.union flags fifoNoUndo ∧
    (∀ old : FifoSt, old.flags.file = true → flags.file = false →
      (create_fifo_buffer (some old) flags).flags.file = false) ∧
    (∀ old : FifoSt, old.flags.new = true → flags.new = false →
      (create_fifo_buffer (some old) flags).flags.new = false) := by
  refine ⟨?_, ?_, ?_⟩
  · cases existing <;> rfl
  · intro old _ hf
    show (flags.file || fifoNoUndo.file) = false
    rw [hf]
    rfl
  · intro old _ hn
    show (flags.new || fifoNoUndo.new) = false
    rw [hn]
    rfl

/-! The file loader. -/

/-- C8: `open_or_create_file_buffer` on a nonexistent path never fails: it
returns (rather than raising `FileAccessError`) a registered buffer whose
flags are exactly File and New, whose content is the empty snapshot (a single
empty line), and whose modification time is absent; the result does not
depend on the file system's contents, since only the path-exists branch maps
the file. -/
theorem open_or_create_nonexistent (fs : FileSys) (filename : String) (flags : Flags)
    (h : fs.fileExists filename = false) :
    open_or_create_file_buffer fs filename flags =
      Except.ok { name := filename, flags := fileNewFlags, buf := emptyBuf,
                  mtime := none } := by
  rw [open_or_create_file_buffer, if_neg (by rw [h]; simp)]
  rfl

/-- A file system on which no path exists. -/
def wEmptyFs : FileSys :=
  { fileExists := fun _ => false,
    fileContent := fun _ => [],
    fileMtime := fun _ => 0 }

theorem open_or_create_nonexistent_witness :
    wEmptyFs.fileExists "missing" = false ∧
    open_or_create_file_buffer wEmptyFs "missing" fifoNoUndo =
      Except.ok { name := "missing", flags := fileNewFlags, buf := emptyBuf,
                  mtime := none } :=
  ⟨rfl, open_or_create_nonexistent wEmptyFs "missing" fifoNoUndo rfl⟩

/-! The debug sink. -/

theorem getLast?_two_newlines (l : List Char) : (l ++ ['\n', '\n']).getLast? = some '\n' := by
  rw [show l ++ ['\n', '\n'] = (l ++ ['\n']) ++ ['\n'] from by simp]
  exact getLast?_append_singleton _ _

theorem fixNl_two_newlines (l : List Char) : fixNl (l ++ ['\n', '\n']) = l ++ ['\n', '\n'] := by
  rw [fixNl, if_pos (getLast?_two_newlines l)]

/-- The found branch of `write_to_debug_buffer` replaces the debug buffer by
a record with the same name and ReadOnly set, on both the success and the
error exit path. -/
theorem write_to_debug_found_readonly (insertOk : Bool) (str : List Char)
    (env : DebugEnv) (b : BufRec) (halive : env.alive = true)
    (hfind : env.buffers.find? (fun r => r.name == debugBufName) = some b) :
    ∃ nb : BufRec, nb.name = b.name ∧ nb.flags.readOnly = true ∧
      (write_to_debug_buffer insertOk str env).1 =
        { env with buffers := replaceBuf env.buffers debugBufName nb } := by
  rw [write_to_debug_buffer, if_neg (by rw [halive]; simp)]
  simp only [hfind]
  cases insertOk with
  | false => exact ⟨setReadOnly (setReadOnly b false) true, rfl, rfl, rfl⟩
  | true =>
    exact ⟨setReadOnly
      { setReadOnly b false with
        buf := b.buf.insert b.buf.back_coord
          (if str.getLast? = some '\n' then str else str ++ ['\n']) } true,
      rfl, rfl, rfl⟩

/-- A registry holding exactly one buffer named `*debug*` has debug count one
and looks that buffer up. -/
theorem debug_single (nb : BufRec) (hname : nb.name = debugBufName)
    (alive : Bool) (raw : List Char) :
    debugCount ⟨alive, [nb], raw⟩ = 1 ∧ debugLookup ⟨alive, [nb], raw⟩ = some nb := by
  constructor
  · rw [debugCount]
    simp [List.filter, hname]
  · rw [debugLookup]
    exact List.find?_cons_of_pos _ (by simp [hname])

/-- C9: with the registry initialized, a first `write_to_debug_buffer` creates
the single debug buffer already tagged ReadOnly; a second and third write find
and append to that same buffer rather than creating a second one, clearing
ReadOnly only for the append and restoring it on every exit path — including
a failing insert (`ok3 = false`). -/
theorem debug_sink_reuse_readonly (m1 m2 m3 : List Char) (ok3 : Bool)
    (h1 : '\n' ∉ m1) (h2 : '\n' ∉ m2) :
    ∀ e1 e2 e3 : DebugEnv,
      e1 = (write_to_debug_buffer true m1 ⟨true, [], []⟩).1 →
      e2 = (write_to_debug_buffer true m2 e1).1 →
      e3 = (write_to_debug_buffer ok3 m3 e2).1 →
      debugCount e1 = 1 ∧
      (debugLookup e1).map (fun r => r.flags.readOnly) = some true ∧
      debugCount e2 = 1 ∧
      (debugLookup e2).map (fun r => r.flags.readOnly) = some true ∧
      (debugLookup e2).map (fun r => r.buf.content) =
        some (m1 ++ ['\n'] ++ m2 ++ ['\n', '\n']) ∧
      debugCount e3 = 1 ∧
      (debugLookup e3).map (fun r => r.flags.readOnly) = some true := by
  intro e1 e2 e3 he1 he2 he3
  subst he3
  subst he2
  subst he1
  have he1c : (write_to_debug_buffer true m1 ⟨true, [], []⟩).1 =
      ⟨true, [⟨debugBufName, debugFlags, ⟨m1 ++ ['\n', '\n']⟩, none⟩], []⟩ := by
    rw [write_to_debug_buffer, if_neg (by simp)]
    simp only [List.find?_nil]
    rw [if_neg (getLast?_not_newline h1)]
    rw [create_buffer, fixNl_two_newlines]
    rfl
  rw [he1c]
  have hone := debug_single ⟨debugBufName, debugFlags, ⟨m1 ++ ['\n', '\n']⟩, none⟩
    rfl true []
  have htake : (m1 ++ ['\n', '\n']).take (m1.length + 1) = m1 ++ ['\n'] := by
    rw [show m1 ++ ['\n', '\n'] = (m1 ++ ['\n']) ++ ['\n'] from by simp,
        show m1.length + 1 = (m1 ++ ['\n']).length from by simp]
    exact List.take_left _ _
  have hdrop : (m1 ++ ['\n', '\n']).drop (m1.length + 1) = ['\n'] := by
    rw [show m1 ++ ['\n', '\n'] = (m1 ++ ['\n']) ++ ['\n'] from by simp,
        show m1.length + 1 = (m1 ++ ['\n']).length from by simp]
    exact List.drop_left _ _
  have hbc : (Buf.mk (m1 ++ ['\n', '\n'])).back_coord = m1.length + 1 := by
    simp [Buf.back_coord]
  have hins : (Buf.mk (m1 ++ ['\n', '\n'])).insert (m1.length + 1) (m2 ++ ['\n']) =
      ⟨((m1 ++ ['\n']) ++ (m2 ++ ['\n'])) ++ ['\n']⟩ := by
    rw [Buf.insert, htake, hdrop]
    rw [fixNl, if_pos (getLast?_append_singleton _ '\n')]
  have hfind1 : ([⟨debugBufName, debugFlags, ⟨m1 ++ ['\n', '\n']⟩, none⟩] :
      List BufRec).find? (fun r => r.name == debugBufName) =
      some ⟨debugBufName, debugFlags, ⟨m1 ++ ['\n', '\n']⟩, none⟩ :=
    List.find?_cons_of_pos _ (by simp)
  have he2c : (write_to_debug_buffer true m2
      ⟨true, [⟨debugBufName, debugFlags, ⟨m1 ++ ['\n', '\n']⟩, none⟩], []⟩).1 =
      ⟨true, [⟨debugBufName, debugFlags,
        ⟨((m1 ++ ['\n']) ++ (m2 ++ ['\n'])) ++ ['\n']⟩, none⟩], []⟩ := by
    rw [write_to_debug_buffer, if_neg (by simp)]
    simp only [hfind1]
    rw [if_pos trivial]
    rw [if_neg (getLast?_not_newline h2)]
    rw [hbc, hins]
    rw [replaceBuf]
    simp [setReadOnly]
    rfl
  rw [he2c]
  have hone2 := debug_single ⟨debugBufName, debugFlags,
    ⟨((m1 ++ ['\n']) ++ (m2 ++ ['\n'])) ++ ['\n']⟩, none⟩ rfl true []
  have hfind2 : ([⟨debugBufName, debugFlags,
      ⟨((m1 ++ ['\n']) ++ (m2 ++ ['\n'])) ++ ['\n']⟩, none⟩] :
      List BufRec).find? (fun r => r.name == debugBufName) =
      some ⟨debugBufName, debugFlags,
        ⟨((m1 ++ ['\n']) ++ (m2 ++ ['\n'])) ++ ['\n']⟩, none⟩ :=
    List.find?_cons_of_pos _ (by simp)
  obtain ⟨nb, hnbname, hnbro, he3c⟩ := write_to_debug_found_readonly ok3 m3
    ⟨true, [⟨debugBufName, debugFlags,
      ⟨((m1 ++ ['\n']) ++ (m2 ++ ['\n'])) ++ ['\n']⟩, none⟩], []⟩
    ⟨debugBufName, debugFlags,
      ⟨((m1 ++ ['\n']) ++ (m2 ++ ['\n'])) ++ ['\n']⟩, none⟩ rfl hfind2
  rw [he3c]
  have hrepl3 : replaceBuf [⟨debugBufName, debugFlags,
      ⟨((m1 ++ ['\n']) ++ (m2 ++ ['\n'])) ++ ['\n']⟩, none⟩] debugBufName nb = [nb] := by
    rw [replaceBuf]
    simp
  have hone3 := debug_single nb hnbname true []
  refine ⟨hone.1, ?_, hone2.1, ?_, ?_, ?_, ?_⟩
  · rw [hone.2]
    rfl
  · rw [hone2.2]
    rfl
  · rw [hone2.2]
    show some (((m1 ++ ['\n']) ++ (m2 ++ ['\n'])) ++ ['\n']) =
      some (m1 ++ ['\n'] ++ m2 ++ ['\n', '\n'])
    congr 1
    simp
  · show debugCount { DebugEnv.mk true [⟨debugBufName, debugFlags,
      ⟨((m1 ++ ['\n']) ++ (m2 ++ ['\n'])) ++ ['\n']⟩, none⟩] [] with
        buffers := replaceBuf [⟨debugBufName, debugFlags,
          ⟨((m1 ++ ['\n']) ++ (m2 ++ ['\n'])) ++ ['\n']⟩, none⟩] debugBufName nb } = 1
    rw [hrepl3]
    exact hone3.1
  · show (debugLookup { DebugEnv.mk true [⟨debugBufName, debugFlags,
      ⟨((m1 ++ ['\n']) ++ (m2 ++ ['\n'])) ++ ['\n']⟩, none⟩] [] with
        buffers := replaceBuf [⟨debugBufName, debugFlags,
          ⟨((m1 ++ ['\n']) ++ (m2 ++ ['\n'])) ++ ['\n']⟩, none⟩] debugBufName nb }).map
      (fun r => r.flags.readOnly) = some true
    rw [hrepl3]
    rw [hone3.2]
    simp [hnbro]

theorem debug_sink_reuse_readonly_witness :
    '\n' ∉ ['a'] ∧ '\n' ∉ ['b'] ∧
    (debugCount (write_to_debug_buffer true ['a'] ⟨true, [], []⟩).1 = 1 ∧
     (debugLookup (write_to_debug_buffer true ['a'] ⟨true, [], []⟩).1).map
        (fun r => r.flags.readOnly) = some true ∧
     debugCount (write_to_debug_buffer true ['b']
        (write_to_debug_buffer true ['a'] ⟨true, [], []⟩).1).1 = 1 ∧
     (debugLookup (write_to_debug_buffer true ['b']
        (write_to_debug_buffer true ['a'] ⟨true, [], []⟩).1).1).map
        (fun r => r.flags.readOnly) = some true ∧
     (debugLookup (write_to_debug_buffer true ['b']
        (write_to_debug_buffer true ['a'] ⟨true, [], []⟩).1).1).map
        (fun r => r.buf.content) = some (['a'] ++ ['\n'] ++ ['b'] ++ ['\n', '\n']) ∧
     debugCount (write_to_debug_buffer false ['c'] (write_to_debug_buffer true ['b']
        (write_to_debug_buffer true ['a'] ⟨true, [], []⟩).1).1).1 = 1 ∧
     (debugLookup (write_to_debug_buffer false ['c'] (write_to_debug_buffer true ['b']
        (write_to_debug_buffer true ['a'] ⟨true, [], []⟩).1).1).1).map
        (fun r => r.flags.readOnly) = some true) :=
  ⟨by decide, by decide,
   debug_sink_reuse_readonly ['a'] ['b'] ['c'] false (by decide) (by decide)
     _ _ _ rfl rfl rfl⟩

end KakBuf
